import Mathlib

/-!
Verification development for the Liquid template lexers in
`liquid2_lexer.py` (`StandardLiquidLexer` and `Liquid2Lexer`, both built on
Pygments' `ExtendedRegexLexer`).

The embedding models:
  * the token stream `(start_offset, token_type, text)`;
  * the rule tables (`tokens` dictionaries) of both lexer classes, with
    `include(...)` entries expanded in declaration order exactly as
    Pygments' `RegexLexerMeta._process_state` does;
  * the concrete regular expressions of the rule tables, as a small
    deterministic pattern language (`GPat`): every pattern in the source
    is a sequence of literals, greedy character classes, optional
    characters, ordered word alternations, word-boundary and lookahead
    assertions, for which greedy matching agrees with Python `re`;
  * `bygroups` emission (which skips empty groups), plain token-type
    emission, and the `endcomment_callback` (which emits all five groups,
    empty or not, and pops a stack frame);
  * the `ExtendedRegexLexer.get_tokens_unprocessed` driving loop,
    including its no-match fallback (reset to root on a newline with a
    `Text` token, otherwise a one-character `Error` token) and its
    stack-transition semantics (`#push`, `#pop`, `('#pop', '#pop')`,
    named-state push, `default('#pop')`).

Character classes `\s`, `\w` are modelled by their ASCII parts (the
claims and examples are ASCII); the identifier class `[\u0080-￿...]`
is modelled exactly as written in the source.
-/

namespace Liq

/-- Token types used by the two lexers.  `liquidText`, `liquidDelimiter`,
`liquidTagName`, `liquidControlFlow` model `Token.Liquid.Text`,
`Token.Liquid.Delimiter`, `Token.Liquid.Tag.Name` and
`Token.Liquid.ControlFlow`; the rest model the standard Pygments types
appearing in the rule tables, plus `error` for the driver's fallback
`Error` token and `text` for its newline fallback `Text` token. -/
inductive TokKind where
  | liquidText | liquidDelimiter | liquidTagName | liquidControlFlow
  | comment | whitespace | text | error
  | stringDouble | stringSingle | stringEscape
  | numberFloat | numberInteger
  | operator | operatorWord | keywordConstant
  | nameFunction | nameVariable | nameAttribute
  | punctuation
  deriving DecidableEq, Repr

/-- Lexer state names: the keys of the `tokens` dictionaries. -/
inductive SName where
  | root | inlineComment | blockComment | rawTag
  | tagExpression | outputExpression
  | singleString | doubleString | path
  | lineStatements | lineExpression
  deriving DecidableEq, Repr

/-- One emitted token: `(index, token_type, value)` as yielded by
`get_tokens_unprocessed`. -/
structure Token where
  start : Nat
  kind : TokKind
  text : List Char
  deriving DecidableEq, Repr

/-- Concatenation of a list of character lists. -/
def cat : List (List Char) → List Char
  | [] => []
  | x :: xs => x ++ cat xs

/-- Concatenation of the texts of a token list, in order. -/
def catTexts (ts : List Token) : List Char := cat (ts.map Token.text)

/-! ### Character classes from the source regexes -/

/-- Python `\s`, ASCII part: `[ \t\n\r\x0b\x0c]`. -/
def isPySpace (c : Char) : Bool :=
  c = ' ' || c = '\t' || c = '\n' || c = '\r' || c = '\x0b' || c = '\x0c'

/-- Class `[a-z]`. -/
def isLowerAZ (c : Char) : Bool := 'a' ≤ c && c ≤ 'z'

/-- Class `[0-9]` (`\d`). -/
def isDigitC (c : Char) : Bool := '0' ≤ c && c ≤ '9'

/-- Class `[a-z_0-9]`, the tail of a generic tag name. -/
def isTagChar (c : Char) : Bool := isLowerAZ c || c = '_' || isDigitC c

/-- Class `[\u0080-￿a-zA-Z_]`, the first character of an identifier. -/
def isIdentStart (c : Char) : Bool :=
  (0x80 ≤ c.toNat && c.toNat ≤ 0xFFFF) || ('a' ≤ c && c ≤ 'z')
    || ('A' ≤ c && c ≤ 'Z') || c = '_'

/-- Class `[\u0080-￿a-zA-Z0-9_-]`, subsequent identifier characters. -/
def isIdentCont (c : Char) : Bool := isIdentStart c || isDigitC c || c = '-'

/-- Python `\w`, ASCII part, used for the `\b` word-boundary assertion. -/
def isWordChar (c : Char) : Bool :=
  ('a' ≤ c && c ≤ 'z') || ('A' ≤ c && c ≤ 'Z') || isDigitC c || c = '_'

/-! ### The pattern language

Each regex in the rule tables is a sequence of capture groups and
zero-width assertions; each group is built from literals, single
characters of a class, greedy `+`/`*`/`?` repetitions of a class, and
ordered alternations of literal words.  For all patterns in the source a
greedy left-to-right match without backtracking agrees with Python `re`
(the character following each starred class is never a member of it, and
no alternation word is a prefix of a later one that could extend a
match). -/

inductive GPat where
  | lit (s : List Char)
  | one (p : Char → Bool)
  | cls1 (p : Char → Bool)
  | star (p : Char → Bool)
  | optC (p : Char → Bool)
  | seq (a b : GPat)
  | alts (ws : List (List Char))

inductive Item where
  | grp (p : GPat)
  | bdry
  | look (p : Char → Bool)

/-- Match a literal word at the front; return the rest on success. -/
def litM : List Char → List Char → Option (List Char)
  | [], cs => some cs
  | _ :: _, [] => none
  | a :: as, c :: cs => if a = c then litM as cs else none

/-- Ordered alternation of literal words: first word that matches wins. -/
def altsM : List (List Char) → List Char → Option (List Char × List Char)
  | [], _ => none
  | w :: ws, cs =>
    match litM w cs with
    | some r => some (w, r)
    | none => altsM ws cs

/-- Greedy matching of one group pattern; returns (matched, rest). -/
def gmatch : GPat → List Char → Option (List Char × List Char)
  | .lit s, cs =>
    match litM s cs with
    | some r => some (s, r)
    | none => none
  | .one _, [] => none
  | .one p, c :: cs => if p c then some ([c], cs) else none
  | .cls1 _, [] => none
  | .cls1 p, c :: cs =>
    if p c then some (c :: cs.takeWhile p, cs.dropWhile p) else none
  | .star p, cs => some (cs.takeWhile p, cs.dropWhile p)
  | .optC _, [] => some ([], [])
  | .optC p, c :: cs => if p c then some ([c], cs) else some ([], c :: cs)
  | .seq a b, cs =>
    match gmatch a cs with
    | none => none
    | some (t, r) =>
      match gmatch b r with
      | none => none
      | some (u, r2) => some (t ++ u, r2)
  | .alts ws, cs => altsM ws cs

/-- Match a sequence of groups and assertions; collect the group texts. -/
def imatch : List Item → List Char → Option (List (List Char) × List Char)
  | [], cs => some ([], cs)
  | .grp p :: its, cs =>
    match gmatch p cs with
    | none => none
    | some (t, r) =>
      match imatch its r with
      | none => none
      | some (gs, r2) => some (t :: gs, r2)
  | .bdry :: its, [] => imatch its []
  | .bdry :: its, c :: cs =>
    if isWordChar c then none else imatch its (c :: cs)
  | .look _ :: _, [] => none
  | .look p :: its, c :: cs => if p c then imatch its (c :: cs) else none

/-! ### Syntactic non-emptiness: patterns that always consume input -/

/-- Conservative check that a group pattern never matches the empty word. -/
def gNE : GPat → Bool
  | .lit s => !s.isEmpty
  | .one _ => true
  | .cls1 _ => true
  | .star _ => false
  | .optC _ => false
  | .seq a b => gNE a || gNE b
  | .alts ws => !ws.isEmpty && ws.all (fun w => !w.isEmpty)

/-- An item that always consumes input when it matches. -/
def itemNE : Item → Bool
  | .grp p => gNE p
  | _ => false

/-- Number of capture groups in an item sequence. -/
def grpCount : List Item → Nat
  | [] => 0
  | .grp _ :: its => grpCount its + 1
  | .bdry :: its => grpCount its
  | .look _ :: its => grpCount its

/-! ### Rules, actions and stack effects -/

/-- Emission behaviour of a rule: a plain token type (yields the whole
match), `bygroups` (yields one token per non-empty group), or the
`endcomment_callback`. -/
inductive Action where
  | tok (k : TokKind)
  | grps (ks : List TokKind)
  | endcommentCb
  deriving DecidableEq, Repr

/-- Stack effect of a rule, as compiled by `RegexLexerMeta`:
`nop` (no transition), `push s` (named state), `pushSelf` (`#push`),
`pop1` (`#pop`, compiled to `-1`: pops unless only one frame remains),
`pop2` (`('#pop', '#pop')`: two guarded pops). -/
inductive StackOp where
  | nop
  | push (s : SName)
  | pushSelf
  | pop1
  | pop2
  deriving DecidableEq, Repr

structure Rule where
  items : List Item
  act : Option Action
  op : StackOp

/-- First rule whose pattern matches at the cursor, with its groups and
the remaining input (Pygments tries the rules in declared order). -/
def tryRules : List Rule → List Char → Option (Rule × List (List Char) × List Char)
  | [], _ => none
  | r :: rs, cs =>
    match imatch r.items cs with
    | some (gs, rest) => some (r, gs, rest)
    | none => tryRules rs cs

/-! ### Token emission -/

/-- Emission for `bygroups(...)`: one token per group, skipping groups
whose text is empty (`if data:` in the Pygments source); offsets advance
by the length of every group, emitted or not. -/
def emitGroups : Nat → List TokKind → List (List Char) → List Token
  | _, _, [] => []
  | _, [], _ => []
  | p, k :: ks, g :: gs =>
    if g.isEmpty then emitGroups p ks gs
    else ⟨p, k, g⟩ :: emitGroups (p + g.length) ks gs

/-- Emission used inside `endcomment_callback`'s decomposed branch: one
token per group, including empty groups (the callback has no emptiness
check). -/
def emitAll : Nat → List TokKind → List (List Char) → List Token
  | _, _, [] => []
  | _, [], _ => []
  | p, k :: ks, g :: gs => ⟨p, k, g⟩ :: emitAll (p + g.length) ks gs

/-- The `endcomment_callback` of both lexer classes: if the stack frame
below the top is `block-comment` (`len(ctx.stack) > 1 and
ctx.stack[-2] == "block-comment"`), the whole match is one `Comment`
token; otherwise the five groups are emitted as
`Punctuation, Whitespace, Token.Liquid.Tag.Name, Whitespace,
Punctuation`.  In both branches the stack is popped
(`ctx.stack.pop()`).  The stack is represented topmost-first. -/
def endcommentCallback (pos : Nat) (gs : List (List Char))
    (stack : List SName) : List Token × List SName :=
  if stack.tail.head? = some SName.blockComment then
    ([⟨pos, .comment, cat gs⟩], stack.tail)
  else
    (emitAll pos
      [.punctuation, .whitespace, .liquidTagName, .whitespace, .punctuation] gs,
     stack.tail)

/-- One guarded pop: `if len(ctx.stack) > 1: ctx.stack.pop()`. -/
def popGuard : List SName → List SName
  | _ :: x :: r => x :: r
  | other => other

/-- Stack transitions of `ExtendedRegexLexer.get_tokens_unprocessed`
(stack represented topmost-first; `pop1` keeps at least one frame, as
the `abs(new_state) >= len(ctx.stack)` guard does). -/
def applyOp : StackOp → List SName → List SName
  | .nop, st => st
  | .push s, st => s :: st
  | .pushSelf, st =>
    match st with
    | [] => []
    | t :: r => t :: t :: r
  | .pop1, st => popGuard st
  | .pop2, st => popGuard (popGuard st)

/-! ### The two rule tables

`Dialect` holds exactly the points where `StandardLiquidLexer.tokens`
and `Liquid2Lexer.tokens` differ:

  * the whitespace-control marker class (`-?` vs `[\-\~\+]?`);
  * the opening of the `liquid` line-statement rule (`\{%-?` vs
    `\{[\-\~\+]?` — the Liquid2 rule matches a single brace);
  * the filter-pipe operator (`\|` vs `\|\|?`);
  * the keyword-constant word list. -/
structure Dialect where
  trim : Char → Bool
  liquidOpen : List Char
  doublePipe : Bool
  constants : List (List Char)

def stdD : Dialect where
  trim := fun c => c = '-'
  liquidOpen := ("\x7b%".data)
  doublePipe := false
  constants :=
    [("true".data), ("false".data), ("nil".data), ("null".data),
     ("with".data), ("reversed".data), ("as".data), ("for".data)]

def l2D : Dialect where
  trim := fun c => c = '-' || c = '~' || c = '+'
  liquidOpen := ("\x7b".data)
  doublePipe := true
  constants :=
    [("true".data), ("false".data), ("nil".data), ("null".data),
     ("with".data), ("reversed".data), ("as".data), ("if".data),
     ("else".data), ("not".data), ("for".data)]

/-- `(\s*)`. -/
def wsStar : GPat := .star isPySpace

/-- `(\{%[trim]?)`. -/
def openTagP (d : Dialect) : GPat := .seq (.lit ("\x7b%".data)) (.optC d.trim)

/-- `([trim]?%})`. -/
def closeTagP (d : Dialect) : GPat := .seq (.optC d.trim) (.lit ("%\x7d".data))

/-- `([trim]?}})`. -/
def closeOutP (d : Dialect) : GPat :=
  .seq (.optC d.trim) (.lit ("\x7d\x7d".data))

/-- `[\u0080-￿a-zA-Z_][\u0080-￿a-zA-Z0-9_-]*`. -/
def identP : GPat := .seq (.one isIdentStart) (.star isIdentCont)

/-- `[a-z][a-z_0-9]*` (generic tag name, root state). -/
def tagNameP : GPat := .seq (.one isLowerAZ) (.star isTagChar)

/-- `[a-z][a-z_0-9]+` (generic tag name, line-statements state). -/
def tagNameP2 : GPat := .seq (.one isLowerAZ) (.cls1 isTagChar)

/-- `(\|)` or `(\|\|?)` depending on the dialect. -/
def pipeP (d : Dialect) : GPat :=
  if d.doublePipe then .seq (.lit ("|".data)) (.optC (fun c => c = '|'))
  else .lit ("|".data)

/-- `if|unless|else|elsif|case|when|endif|endunless|endcase|for|endfor`. -/
def cfWords : List (List Char) :=
  [("if".data), ("unless".data), ("else".data), ("elsif".data),
   ("case".data), ("when".data), ("endif".data), ("endunless".data),
   ("endcase".data), ("for".data), ("endfor".data)]

/-- `and|or|contains|in`. -/
def opWords : List (List Char) :=
  [("and".data), ("or".data), ("contains".data), ("in".data)]

/-- `>=|<=|==|!=|<>|>|<|=` (ordered alternation). -/
def cmpWords : List (List Char) :=
  [(">=".data), ("<=".data), ("==".data), ("!=".data), ("<>".data),
   (">".data), ("<".data), ("=".data)]

/-- `[,:]|\.\.|\(|\)` as an ordered word alternation. -/
def punctWords : List (List Char) :=
  [(",".data), (":".data), ("..".data), ("(".data), (")".data)]

/-- The `"expression"` state (shared by both lexers up to the dialect
differences), rules in declaration order. -/
def exprRules (d : Dialect) : List Rule :=
  [⟨[.grp (.lit ("\x22".data))], some (.tok .stringDouble), .push .doubleString⟩,
   ⟨[.grp (.lit ("\x27".data))], some (.tok .stringSingle), .push .singleString⟩,
   ⟨[.grp (.seq (.cls1 isDigitC) (.seq (.lit (".".data)) (.cls1 isDigitC)))],
     some (.tok .numberFloat), .nop⟩,
   ⟨[.grp (.cls1 isDigitC)], some (.tok .numberInteger), .nop⟩,
   ⟨[.grp (pipeP d), .grp wsStar, .grp identP],
     some (.grps [.operator, .whitespace, .nameFunction]), .nop⟩,
   ⟨[.grp (.lit ("[".data))], some (.tok .punctuation), .push .path⟩,
   ⟨[.grp identP, .grp (.one (fun c => c = '[' || c = '.'))],
     some (.grps [.nameVariable, .punctuation]), .push .path⟩,
   ⟨[.grp identP, .grp wsStar, .look (fun c => c = ':' || c = '=')],
     some (.grps [.nameAttribute, .whitespace]), .nop⟩,
   ⟨[.grp (.alts d.constants), .bdry], some (.tok .keywordConstant), .nop⟩,
   ⟨[.grp (.alts opWords), .bdry], some (.tok .operatorWord), .nop⟩,
   ⟨[.grp identP], some (.tok .nameVariable), .nop⟩,
   ⟨[.grp (.alts cmpWords)], some (.tok .operator), .nop⟩,
   ⟨[.grp (.alts punctWords)], some (.tok .punctuation), .nop⟩]

/-- `"multiline-expression"`: the expression rules then `[ \t\n\r]+`. -/
def multilineExprRules (d : Dialect) : List Rule :=
  exprRules d ++
    [⟨[.grp (.cls1 (fun c => c = ' ' || c = '\t' || c = '\n' || c = '\r'))],
      some (.tok .whitespace), .nop⟩]

/-- `"inline-expression"`: the expression rules then `[ \t]+`. -/
def inlineExprRules (d : Dialect) : List Rule :=
  exprRules d ++
    [⟨[.grp (.cls1 (fun c => c = ' ' || c = '\t'))],
      some (.tok .whitespace), .nop⟩]

/-- The `"root"` state, rules in declaration order. -/
def rootRules (d : Dialect) : List Rule :=
  [⟨[.grp (.cls1 (fun c => !(c = '\x7b')))], some (.tok .liquidText), .nop⟩,
   ⟨[.grp (openTagP d), .grp wsStar, .grp (.lit ("#".data))],
     some (.grps [.liquidDelimiter, .whitespace, .comment]),
     .push .inlineComment⟩,
   ⟨[.grp (.seq (.lit d.liquidOpen) (.optC d.trim)), .grp wsStar,
      .grp (.lit ("liquid".data))],
     some (.grps [.liquidDelimiter, .whitespace, .liquidTagName]),
     .push .lineStatements⟩,
   ⟨[.grp (openTagP d), .grp wsStar, .grp (.lit ("comment".data)),
      .grp wsStar, .grp (closeTagP d)],
     some (.grps [.liquidDelimiter, .whitespace, .liquidTagName,
       .whitespace, .liquidDelimiter]),
     .push .blockComment⟩,
   ⟨[.grp (openTagP d), .grp wsStar, .grp (.lit ("raw".data)),
      .grp wsStar, .grp (closeTagP d)],
     some (.grps [.liquidDelimiter, .whitespace, .liquidTagName,
       .whitespace, .liquidDelimiter]),
     .push .rawTag⟩,
   ⟨[.grp (openTagP d), .grp wsStar, .grp (.alts cfWords), .bdry,
      .grp wsStar],
     some (.grps [.liquidDelimiter, .whitespace, .liquidControlFlow,
       .whitespace]),
     .push .tagExpression⟩,
   ⟨[.grp (openTagP d), .grp wsStar, .grp tagNameP, .grp wsStar],
     some (.grps [.liquidDelimiter, .whitespace, .liquidTagName,
       .whitespace]),
     .push .tagExpression⟩,
   ⟨[.grp (.seq (.lit ("\x7b\x7b".data)) (.optC d.trim)), .grp wsStar],
     some (.grps [.liquidDelimiter, .whitespace]),
     .push .outputExpression⟩,
   ⟨[.grp (.lit ("\x7b".data))], some (.tok .liquidText), .nop⟩]

/-- The `"inline-comment"` state. -/
def inlineCommentRules (d : Dialect) : List Rule :=
  [⟨[.grp (.cls1 (fun c => !(c = '-' || c = '%')))], some (.tok .comment), .nop⟩,
   ⟨[.grp (closeTagP d)], some (.tok .liquidDelimiter), .pop1⟩,
   ⟨[.grp (.one (fun c => c = '-' || c = '%'))], some (.tok .comment), .nop⟩]

/-- The `"block-comment"` state: a text run, the nested-`comment`
re-entrant push (whole match as one `Comment` token), the
`endcomment_callback` rule, and the lone-brace fallback. -/
def blockCommentRules (d : Dialect) : List Rule :=
  [⟨[.grp (.cls1 (fun c => !(c = '\x7b')))], some (.tok .comment), .nop⟩,
   ⟨[.grp (.seq (.lit ("\x7b%".data)) (.seq (.optC d.trim) (.seq wsStar
      (.seq (.lit ("comment".data)) (.seq wsStar
      (.seq (.optC d.trim) (.lit ("%\x7d".data))))))))],
     some (.tok .comment), .pushSelf⟩,
   ⟨[.grp (openTagP d), .grp wsStar, .grp (.lit ("endcomment".data)),
      .grp wsStar, .grp (closeTagP d)],
     some .endcommentCb, .nop⟩,
   ⟨[.grp (.lit ("\x7b".data))], some (.tok .comment), .nop⟩]

/-- The `"raw-tag"` state (its text runs use the plain `Text` type). -/
def rawTagRules (d : Dialect) : List Rule :=
  [⟨[.grp (.cls1 (fun c => !(c = '\x7b')))], some (.tok .text), .nop⟩,
   ⟨[.grp (openTagP d), .grp wsStar, .grp (.lit ("endraw".data)),
      .grp wsStar, .grp (closeTagP d)],
     some (.grps [.liquidDelimiter, .whitespace, .liquidTagName,
       .whitespace, .liquidDelimiter]),
     .pop1⟩,
   ⟨[.grp (.lit ("\x7b".data))], some (.tok .text), .nop⟩]

/-- The `"single-string"` state.  `\\.` is modelled as a backslash
followed by any character other than a newline (Python `.` without
`DOTALL`). -/
def singleStringRules : List Rule :=
  [⟨[.grp (.seq (.lit ("\x5c".data)) (.one (fun c => !(c = '\n'))))],
     some (.tok .stringEscape), .nop⟩,
   ⟨[.grp (.lit ("\x27".data))], some (.tok .stringSingle), .pop1⟩,
   ⟨[.grp (.cls1 (fun c => !(c = '\x5c' || c = '\x27')))],
     some (.tok .stringSingle), .nop⟩]

/-- The `"double-string"` state. -/
def doubleStringRules : List Rule :=
  [⟨[.grp (.seq (.lit ("\x5c".data)) (.one (fun c => !(c = '\n'))))],
     some (.tok .stringEscape), .nop⟩,
   ⟨[.grp (.lit ("\x22".data))], some (.tok .stringDouble), .pop1⟩,
   ⟨[.grp (.cls1 (fun c => !(c = '\x5c' || c = '\x22')))],
     some (.tok .stringDouble), .nop⟩]

/-- The `"path"` state, ending with `default("#pop")` (an empty match
with no action and a guarded pop). -/
def pathRules : List Rule :=
  [⟨[.grp (.lit (".".data))], some (.tok .punctuation), .nop⟩,
   ⟨[.grp (.lit ("[".data))], some (.tok .punctuation), .pushSelf⟩,
   ⟨[.grp (.lit ("]".data))], some (.tok .punctuation), .pop1⟩,
   ⟨[.grp identP], some (.tok .nameVariable), .nop⟩,
   ⟨[.grp (.cls1 isDigitC)], some (.tok .numberInteger), .nop⟩,
   ⟨[.grp (.lit ("\x22".data))], some (.tok .stringDouble), .push .doubleString⟩,
   ⟨[.grp (.lit ("\x27".data))], some (.tok .stringSingle), .push .singleString⟩,
   ⟨[], none, .pop1⟩]

/-- The `"line-statements"` state. -/
def lineStatementsRules (d : Dialect) : List Rule :=
  [⟨[.grp (closeTagP d)], some (.tok .liquidDelimiter), .pop1⟩,
   ⟨[.grp wsStar, .grp (.alts cfWords), .bdry],
     some (.grps [.whitespace, .liquidControlFlow]), .push .lineExpression⟩,
   ⟨[.grp wsStar, .grp tagNameP2],
     some (.grps [.whitespace, .liquidTagName]), .push .lineExpression⟩,
   ⟨[.grp (.cls1 (fun c => c = ' ' || c = '\t'))],
     some (.tok .whitespace), .nop⟩]

/-- The `"line-expression"` state: `[ \t\r]*\n` pops one frame, then the
inline-expression rules, then `[trim]?%}` pops two frames at once. -/
def lineExpressionRules (d : Dialect) : List Rule :=
  ⟨[.grp (.seq (.star (fun c => c = ' ' || c = '\t' || c = '\r'))
      (.lit ("\n".data)))],
    some (.tok .whitespace), .pop1⟩ ::
  inlineExprRules d ++
  [⟨[.grp (closeTagP d)], some (.tok .liquidDelimiter), .pop2⟩]

/-- The full rule table: `include(...)` entries are expanded in place,
exactly as `RegexLexerMeta._process_state` compiles them. -/
def rules (d : Dialect) : SName → List Rule
  | .root => rootRules d
  | .inlineComment => inlineCommentRules d
  | .blockComment => blockCommentRules d
  | .rawTag => rawTagRules d
  | .tagExpression =>
    multilineExprRules d ++
      [⟨[.grp (closeTagP d)], some (.tok .liquidDelimiter), .pop1⟩]
  | .outputExpression =>
    multilineExprRules d ++
      [⟨[.grp (closeOutP d)], some (.tok .liquidDelimiter), .pop1⟩]
  | .singleString => singleStringRules
  | .doubleString => doubleStringRules
  | .path => pathRules
  | .lineStatements => lineStatementsRules d
  | .lineExpression => lineExpressionRules d

/-! ### The driving loop -/

/-- Result of one iteration of the driving loop. -/
inductive StepRes where
  | done
  | stuck
  | next (toks : List Token) (pos : Nat) (rest : List Char) (stack : List SName)
  deriving Repr

/-- One iteration of `ExtendedRegexLexer.get_tokens_unprocessed`: try the
rules of the top-of-stack state in order; on a match, emit the rule's
tokens, advance the cursor, and apply the stack effect; otherwise stop at
end of input, or emit the newline fallback (`Text` token, stack reset to
`['root']`) or a one-character `Error` token.  `stuck` models the
(unreachable) `IndexError` on an empty stack. -/
def step (d : Dialect) (pos : Nat) (rest : List Char)
    (stack : List SName) : StepRes :=
  match stack with
  | [] => .stuck
  | s :: _ =>
    match tryRules (rules d s) rest with
    | some (r, gs, rest2) =>
      match r.act with
      | none => .next [] (pos + (cat gs).length) rest2 (applyOp r.op stack)
      | some (.tok k) =>
        .next [⟨pos, k, cat gs⟩] (pos + (cat gs).length) rest2
          (applyOp r.op stack)
      | some (.grps ks) =>
        .next (emitGroups pos ks gs) (pos + (cat gs).length) rest2
          (applyOp r.op stack)
      | some .endcommentCb =>
        .next (endcommentCallback pos gs stack).1 (pos + (cat gs).length)
          rest2 (applyOp r.op (endcommentCallback pos gs stack).2)
    | none =>
      match rest with
      | [] => .done
      | c :: rs =>
        if c = '\n' then
          .next [⟨pos, .text, [c]⟩] (pos + 1) rs [SName.root]
        else
          .next [⟨pos, .error, [c]⟩] (pos + 1) rs stack

/-- The fuel-indexed driving loop; returns the emitted tokens, the final
stack, and whether end of input was reached within the fuel. -/
def run (d : Dialect) : Nat → Nat → List Char → List SName →
    List Token × List SName × Bool
  | 0, _, _, stack => ([], stack, false)
  | Nat.succ f, pos, rest, stack =>
    match step d pos rest stack with
    | .done => ([], stack, true)
    | .stuck => ([], stack, false)
    | .next toks pos2 rest2 stack2 =>
      let r := run d f pos2 rest2 stack2
      (toks ++ r.1, r.2.1, r.2.2)

/-- Stack trace of the driving loop: the state stack after each step. -/
def runTr (d : Dialect) : Nat → Nat → List Char → List SName →
    List (List SName)
  | 0, _, _, _ => []
  | Nat.succ f, pos, rest, stack =>
    match step d pos rest stack with
    | .done => []
    | .stuck => []
    | .next _ pos2 rest2 stack2 => stack2 :: runTr d f pos2 rest2 stack2

/-- Tokenize a whole string from the initial context `(pos 0, ['root'])`,
with enough fuel for the loop to reach end of input. -/
def tokenize (d : Dialect) (s : String) : List Token × List SName × Bool :=
  run d (2 * s.data.length + 2) 0 s.data [SName.root]

/-- Tokens emitted by `Liquid2Lexer` on `s`. -/
def toksL2 (s : String) : List Token := (tokenize l2D s).1

/-- Final state stack of `Liquid2Lexer` on `s`. -/
def stackL2 (s : String) : List SName := (tokenize l2D s).2.1

/-- Whether the `Liquid2Lexer` loop reached end of input on `s`. -/
def doneL2 (s : String) : Bool := (tokenize l2D s).2.2

/-- Tokens emitted by `StandardLiquidLexer` on `s` (before the
`Token.Liquid.*` relabelling of its `get_tokens_unprocessed` override). -/
def toksStd (s : String) : List Token := (tokenize stdD s).1

/-- Stack trace of `Liquid2Lexer` on `s`. -/
def traceL2 (s : String) : List (List SName) :=
  runTr l2D (2 * s.data.length + 2) 0 s.data [SName.root]

/-- Stack trace of `StandardLiquidLexer` on `s`. -/
def traceStd (s : String) : List (List SName) :=
  runTr stdD (2 * s.data.length + 2) 0 s.data [SName.root]

/-! ### Well-formedness of the rule tables

These checks, verified by computation over the two concrete tables,
record the shape facts the driver proofs need: every rule with an action
consumes at least one character whenever it matches, the `bygroups`
kind lists match the group counts, the `endcomment_callback` rule occurs
only in the `block-comment` state with five groups and no declared
transition, and the only action-less rule is the `default("#pop")` of
the `path` state. -/

def ruleProg (r : Rule) : Bool := r.items.any itemNE

def isPop1 : StackOp → Bool
  | .pop1 => true
  | _ => false

def isNop : StackOp → Bool
  | .nop => true
  | _ => false

def isPath : SName → Bool
  | .path => true
  | _ => false

def isBlockComment : SName → Bool
  | .blockComment => true
  | _ => false

def ruleOk (s : SName) (r : Rule) : Bool :=
  match r.act with
  | none => r.items.isEmpty && isPop1 r.op && isPath s
  | some (.tok _) => ruleProg r
  | some (.grps ks) => (grpCount r.items == ks.length) && ruleProg r
  | some .endcommentCb =>
    (grpCount r.items == 5) && isBlockComment s && isNop r.op && ruleProg r

def allStates : List SName :=
  [.root, .inlineComment, .blockComment, .rawTag, .tagExpression,
   .outputExpression, .singleString, .doubleString, .path,
   .lineStatements, .lineExpression]

def allOk (d : Dialect) : Bool :=
  allStates.all (fun s => (rules d s).all (ruleOk s))

/-! ### Chaining and coverage of emitted tokens -/

/-- The tokens in `ts` are contiguous starting at offset `p`: each token
starts where the previous one ended. -/
def chainedFrom : Nat → List Token → Bool
  | _, [] => true
  | p, t :: ts => (t.start == p) && chainedFrom (p + t.text.length) ts

/-! ### The stack invariant -/

/-- The bottom frame of the stack is `root` (and the stack is
non-empty); the driver maintains this from the initial `['root']`. -/
def lastRoot (st : List SName) : Prop := st.getLast? = some SName.root

/-! ### Example inputs from the specification -/

/-- The nested block-comment example
`{% comment %}A{% comment %}B{% endcomment %}C{% endcomment %}`. -/
def exampleNested : String :=
  "\x7b% comment %\x7dA\x7b% comment %\x7dB\x7b% endcomment %\x7dC\x7b% endcomment %\x7d"

/-- A block comment closed with `{%endcomment%}` (no inner whitespace). -/
def exampleTight : String := "\x7b% comment %\x7d\x7b%endcomment%\x7d"

/-- A single-quoted string whose last character is a backslash at end of
input: `{{ '\`. -/
def exampleBackslashEOI : String := "\x7b\x7b \x27\x5c"

/-- An output expression left open at end of input: `{{ `. -/
def exampleUnterminated : String := "\x7b\x7b "

/-- A line-statement block opened with `{liquid` and then a bare newline:
`{liquid\n`. -/
def exampleLiquidNL : String := "\x7bliquid\n"

/-- The line-statement example `{% liquid\nif a\necho a\nendif %}`. -/
def exampleLineStmt : String := "\x7b% liquid\nif a\necho a\nendif %\x7d"

/-- The bracketed-path example `{{ foo[bar]["a b"][1] }}`. -/
def examplePath : String := "\x7b\x7b foo[bar][\x22a b\x22][1] \x7d\x7d"

/-! ## Theorems -/

/-! ### Soundness of the matchers -/

theorem litM_sound : ∀ (s cs r : List Char), litM s cs = some r → s ++ r = cs
  | [], cs, r, h => by
    rw [litM] at h
    injection h with h2
    subst h2
    rfl
  | _ :: _, [], _, h => by simp [litM] at h
  | a :: as, c :: cs, r, h => by
    by_cases hac : a = c
    · subst hac
      simp only [litM, if_pos rfl] at h
      simpa using litM_sound as cs r h
    · simp [litM, hac] at h

theorem altsM_sound : ∀ (ws : List (List Char)) (cs t r : List Char),
    altsM ws cs = some (t, r) → t ++ r = cs ∧ t ∈ ws
  | [], _, _, _, h => by simp [altsM] at h
  | w :: ws, cs, t, r, h => by
    rw [altsM] at h
    split at h
    · rename_i r2 hl
      injection h with h2
      injection h2 with h3 h4
      subst h3; subst h4
      exact ⟨litM_sound _ _ _ hl, by simp⟩
    · have := altsM_sound ws cs t r h
      exact ⟨this.1, by simp [this.2]⟩

theorem gmatch_sound : ∀ (p : GPat) (cs t r : List Char),
    gmatch p cs = some (t, r) → t ++ r = cs
  | .lit s, cs, t, r, h => by
    rw [gmatch] at h
    split at h
    · rename_i r2 hl
      injection h with h2
      injection h2 with h3 h4
      subst h3; subst h4
      exact litM_sound _ _ _ hl
    · cases h
  | .one p, [], t, r, h => by simp [gmatch] at h
  | .one p, c :: cs, t, r, h => by
    by_cases hc : p c
    · rw [gmatch, if_pos hc] at h
      injection h with h2
      injection h2 with h3 h4
      subst h3; subst h4
      rfl
    · simp [gmatch, hc] at h
  | .cls1 p, [], t, r, h => by simp [gmatch] at h
  | .cls1 p, c :: cs, t, r, h => by
    by_cases hc : p c
    · rw [gmatch, if_pos hc] at h
      injection h with h2
      injection h2 with h3 h4
      subst h3; subst h4
      simp [List.takeWhile_append_dropWhile]
    · simp [gmatch, hc] at h
  | .star p, cs, t, r, h => by
    rw [gmatch] at h
    injection h with h2
    injection h2 with h3 h4
    subst h3; subst h4
    simp [List.takeWhile_append_dropWhile]
  | .optC p, [], t, r, h => by
    rw [gmatch] at h
    injection h with h2
    injection h2 with h3 h4
    subst h3; subst h4
    rfl
  | .optC p, c :: cs, t, r, h => by
    by_cases hc : p c
    · rw [gmatch, if_pos hc] at h
      injection h with h2
      injection h2 with h3 h4
      subst h3; subst h4
      rfl
    · rw [gmatch, if_neg hc] at h
      injection h with h2
      injection h2 with h3 h4
      subst h3; subst h4
      rfl
  | .seq a b, cs, t, r, h => by
    rw [gmatch] at h
    split at h
    · cases h
    · rename_i t1 r1 ha
      split at h
      · cases h
      · rename_i t2 r2 hb
        injection h with h2
        injection h2 with h3 h4
        subst h3; subst h4
        have h1 := gmatch_sound a cs t1 r1 ha
        have h5 := gmatch_sound b r1 t2 r2 hb
        rw [List.append_assoc, h5, h1]
  | .alts ws, cs, t, r, h => (altsM_sound ws cs t r h).1

theorem imatch_sound : ∀ (its : List Item) (cs : List Char)
    (gs : List (List Char)) (r : List Char),
    imatch its cs = some (gs, r) → cat gs ++ r = cs
  | [], cs, gs, r, h => by
    rw [imatch] at h
    injection h with h2
    injection h2 with h3 h4
    subst h3; subst h4
    rfl
  | .grp p :: its, cs, gs, r, h => by
    rw [imatch] at h
    split at h
    · cases h
    · rename_i t r1 hg
      split at h
      · cases h
      · rename_i gs1 r2 hi
        injection h with h2
        injection h2 with h3 h4
        subst h3; subst h4
        have h1 := gmatch_sound p cs t r1 hg
        have h5 := imatch_sound its r1 gs1 r2 hi
        simp only [cat]
        rw [List.append_assoc, h5, h1]
  | .bdry :: its, [], gs, r, h => imatch_sound its [] gs r h
  | .bdry :: its, c :: cs, gs, r, h => by
    by_cases hc : isWordChar c
    · simp [imatch, hc] at h
    · simp only [imatch, if_neg hc] at h
      exact imatch_sound its (c :: cs) gs r h
  | .look p :: its, [], gs, r, h => by simp [imatch] at h
  | .look p :: its, c :: cs, gs, r, h => by
    by_cases hc : p c
    · simp only [imatch, if_pos hc] at h
      exact imatch_sound its (c :: cs) gs r h
    · simp [imatch, hc] at h

theorem gmatch_ne : ∀ (p : GPat) (cs t r : List Char),
    gNE p = true → gmatch p cs = some (t, r) → t ≠ []
  | .lit s, cs, t, r, hp, h => by
    rw [gmatch] at h
    split at h
    · rename_i r2 hl
      injection h with h2
      injection h2 with h3 h4
      subst h3
      simpa [gNE, List.isEmpty_iff] using hp
    · cases h
  | .one p, [], t, r, hp, h => by simp [gmatch] at h
  | .one p, c :: cs, t, r, hp, h => by
    by_cases hc : p c
    · rw [gmatch, if_pos hc] at h
      injection h with h2
      injection h2 with h3 h4
      subst h3
      simp
    · simp [gmatch, hc] at h
  | .cls1 p, [], t, r, hp, h => by simp [gmatch] at h
  | .cls1 p, c :: cs, t, r, hp, h => by
    by_cases hc : p c
    · rw [gmatch, if_pos hc] at h
      injection h with h2
      injection h2 with h3 h4
      subst h3
      simp
    · simp [gmatch, hc] at h
  | .star p, cs, t, r, hp, h => by simp [gNE] at hp
  | .optC p, cs, t, r, hp, h => by simp [gNE] at hp
  | .seq a b, cs, t, r, hp, h => by
    rw [gmatch] at h
    split at h
    · cases h
    · rename_i t1 r1 ha
      split at h
      · cases h
      · rename_i t2 r2 hb
        injection h with h2
        injection h2 with h3 h4
        subst h3
        rw [gNE, Bool.or_eq_true] at hp
        rcases hp with hp | hp
        · have := gmatch_ne a cs t1 r1 hp ha
          simp [this]
        · have := gmatch_ne b r1 t2 r2 hp hb
          simp [this]
  | .alts ws, cs, t, r, hp, h => by
    have hm := (altsM_sound ws cs t r h).2
    rw [gNE, Bool.and_eq_true] at hp
    have := List.all_eq_true.mp hp.2 t hm
    simpa [List.isEmpty_iff] using this

theorem imatch_ne : ∀ (its : List Item) (cs : List Char)
    (gs : List (List Char)) (r : List Char),
    its.any itemNE = true → imatch its cs = some (gs, r) → cat gs ≠ []
  | [], cs, gs, r, hp, h => by simp at hp
  | .grp p :: its, cs, gs, r, hp, h => by
    rw [imatch] at h
    split at h
    · cases h
    · rename_i t r1 hg
      split at h
      · cases h
      · rename_i gs1 r2 hi
        injection h with h2
        injection h2 with h3 h4
        subst h3
        simp only [List.any_cons, Bool.or_eq_true] at hp
        rcases hp with hp | hp
        · have := gmatch_ne p cs t r1 hp hg
          simp [cat, this]
        · have := imatch_ne its r1 gs1 r2 hp hi
          simp [cat, this]
  | .bdry :: its, [], gs, r, hp, h => by
    refine imatch_ne its [] gs r ?_ h
    simpa [itemNE] using hp
  | .bdry :: its, c :: cs, gs, r, hp, h => by
    by_cases hc : isWordChar c
    · simp [imatch, hc] at h
    · rw [imatch, if_neg hc] at h
      refine imatch_ne its (c :: cs) gs r ?_ h
      simpa [itemNE] using hp
  | .look p :: its, [], gs, r, hp, h => by simp [imatch] at h
  | .look p :: its, c :: cs, gs, r, hp, h => by
    by_cases hc : p c
    · rw [imatch, if_pos hc] at h
      refine imatch_ne its (c :: cs) gs r ?_ h
      simpa [itemNE] using hp
    · simp [imatch, hc] at h

theorem imatch_len : ∀ (its : List Item) (cs : List Char)
    (gs : List (List Char)) (r : List Char),
    imatch its cs = some (gs, r) → gs.length = grpCount its
  | [], cs, gs, r, h => by
    rw [imatch] at h
    injection h with h2
    injection h2 with h3 h4
    subst h3
    rfl
  | .grp p :: its, cs, gs, r, h => by
    rw [imatch] at h
    split at h
    · cases h
    · rename_i t r1 hg
      split at h
      · cases h
      · rename_i gs1 r2 hi
        injection h with h2
        injection h2 with h3 h4
        subst h3
        simp [grpCount, imatch_len its r1 gs1 r2 hi]
  | .bdry :: its, [], gs, r, h => imatch_len its [] gs r h
  | .bdry :: its, c :: cs, gs, r, h => by
    by_cases hc : isWordChar c
    · simp [imatch, hc] at h
    · rw [imatch, if_neg hc] at h
      exact imatch_len its (c :: cs) gs r h
  | .look p :: its, [], gs, r, h => by simp [imatch] at h
  | .look p :: its, c :: cs, gs, r, h => by
    by_cases hc : p c
    · rw [imatch, if_pos hc] at h
      exact imatch_len its (c :: cs) gs r h
    · simp [imatch, hc] at h

theorem tryRules_sound : ∀ (rs : List Rule) (cs : List Char) (r : Rule)
    (gs : List (List Char)) (rest : List Char),
    tryRules rs cs = some (r, gs, rest) →
    r ∈ rs ∧ imatch r.items cs = some (gs, rest)
  | [], _, _, _, _, h => by simp [tryRules] at h
  | r0 :: rs, cs, r, gs, rest, h => by
    rw [tryRules] at h
    split at h
    · rename_i gs1 rest1 hm
      injection h with h2
      injection h2 with h3 h4
      subst h3
      injection h4 with h5 h6
      subst h5; subst h6
      exact ⟨by simp, hm⟩
    · have := tryRules_sound rs cs r gs rest h
      exact ⟨by simp [this.1], this.2⟩

theorem tryRules_none : ∀ (rs : List Rule) (cs : List Char),
    tryRules rs cs = none → ∀ r ∈ rs, imatch r.items cs = none
  | [], _, _, _, hr => by simp at hr
  | r0 :: rs, cs, h, r, hr => by
    rw [tryRules] at h
    split at h
    · cases h
    · rename_i hm
      rcases List.mem_cons.mp hr with rfl | hr2
      · exact hm
      · exact tryRules_none rs cs h r hr2

theorem allOk_std : allOk stdD = true := by decide

theorem allOk_l2 : allOk l2D = true := by decide

theorem mem_allStates : ∀ s : SName, s ∈ allStates := by
  intro s
  cases s <;> simp [allStates]

theorem ruleOk_of_mem {d : Dialect} {s : SName} {r : Rule}
    (hall : allOk d = true) (hmem : r ∈ rules d s) : ruleOk s r = true := by
  have h1 := List.all_eq_true.mp hall s (mem_allStates s)
  exact List.all_eq_true.mp h1 r hmem

theorem catTexts_nil : catTexts [] = [] := rfl

theorem catTexts_cons (t : Token) (ts : List Token) :
    catTexts (t :: ts) = t.text ++ catTexts ts := rfl

theorem catTexts_append : ∀ (a b : List Token),
    catTexts (a ++ b) = catTexts a ++ catTexts b
  | [], b => rfl
  | t :: a, b => by
    simp only [List.cons_append, catTexts_cons, catTexts_append a b,
      List.append_assoc]

theorem chainedFrom_append : ∀ (a b : List Token) (p : Nat),
    chainedFrom p a = true →
    chainedFrom (p + (catTexts a).length) b = true →
    chainedFrom p (a ++ b) = true
  | [], b, p, _, hb => by simpa [catTexts] using hb
  | t :: a, b, p, ha, hb => by
    rw [chainedFrom, Bool.and_eq_true] at ha
    rw [List.cons_append, chainedFrom, Bool.and_eq_true]
    refine ⟨ha.1, chainedFrom_append a b (p + t.text.length) ha.2 ?_⟩
    have : p + (catTexts (t :: a)).length =
        p + t.text.length + (catTexts a).length := by
      rw [catTexts_cons, List.length_append]
      omega
    rw [this] at hb
    exact hb

theorem emitGroups_spec : ∀ (gs : List (List Char)) (ks : List TokKind)
    (p : Nat), gs.length ≤ ks.length →
    catTexts (emitGroups p ks gs) = cat gs ∧
    chainedFrom p (emitGroups p ks gs) = true
  | [], ks, p, _ => by
    cases ks <;> simp [emitGroups, catTexts, cat, chainedFrom]
  | g :: gs, [], p, hlen => by simp at hlen
  | g :: gs, k :: ks, p, hlen => by
    have hlen2 : gs.length ≤ ks.length := by simpa using hlen
    by_cases hg : g.isEmpty
    · have hge : g = [] := List.isEmpty_iff.mp hg
      subst hge
      have ih := emitGroups_spec gs ks p hlen2
      simp only [emitGroups, if_pos hg, cat, List.nil_append]
      exact ih
    · have ih := emitGroups_spec gs ks (p + g.length) hlen2
      simp only [emitGroups, if_neg hg, catTexts_cons, cat, chainedFrom]
      exact ⟨by rw [ih.1], by simp [ih.2]⟩

theorem emitAll_spec : ∀ (gs : List (List Char)) (ks : List TokKind)
    (p : Nat), gs.length ≤ ks.length →
    catTexts (emitAll p ks gs) = cat gs ∧
    chainedFrom p (emitAll p ks gs) = true
  | [], ks, p, _ => by
    cases ks <;> simp [emitAll, catTexts, cat, chainedFrom]
  | g :: gs, [], p, hlen => by simp at hlen
  | g :: gs, k :: ks, p, hlen => by
    have hlen2 : gs.length ≤ ks.length := by simpa using hlen
    have ih := emitAll_spec gs ks (p + g.length) hlen2
    simp only [emitAll, catTexts_cons, cat, chainedFrom]
    exact ⟨by rw [ih.1], by simp [ih.2]⟩

theorem lastRoot_ne_nil {st : List SName} (h : lastRoot st) : st ≠ [] := by
  intro he
  subst he
  simp [lastRoot] at h

theorem lastRoot_cons_of_ne {s : SName} {st : List SName}
    (h : lastRoot (s :: st)) (hs : s ≠ SName.root) :
    st ≠ [] ∧ lastRoot st := by
  cases st with
  | nil =>
    rw [lastRoot, List.getLast?_singleton] at h
    exact absurd (Option.some.inj h) hs
  | cons x st2 =>
    refine ⟨by simp, ?_⟩
    rwa [lastRoot, List.getLast?_cons_cons] at h

theorem lastRoot_cons_cons {s x : SName} {st : List SName}
    (h : lastRoot (s :: x :: st)) : lastRoot (x :: st) := by
  rwa [lastRoot, List.getLast?_cons_cons] at h

theorem popGuard_lastRoot : ∀ {st : List SName}, lastRoot st →
    lastRoot (popGuard st) := by
  intro st h
  match st with
  | [] => exact absurd rfl (lastRoot_ne_nil h)
  | [t] => exact h
  | t :: x :: r => exact lastRoot_cons_cons h

theorem applyOp_lastRoot : ∀ (op : StackOp) {st : List SName},
    lastRoot st → lastRoot (applyOp op st) := by
  intro op st h
  cases op with
  | nop => exact h
  | push s =>
    match st with
    | [] => exact absurd rfl (lastRoot_ne_nil h)
    | x :: r =>
      rw [applyOp, lastRoot, List.getLast?_cons_cons]
      exact h
  | pushSelf =>
    match st with
    | [] => exact absurd rfl (lastRoot_ne_nil h)
    | x :: r =>
      rw [applyOp, lastRoot, List.getLast?_cons_cons]
      exact h
  | pop1 => exact popGuard_lastRoot h
  | pop2 => exact popGuard_lastRoot (popGuard_lastRoot h)

theorem popGuard_len : ∀ (st : List SName),
    (popGuard st).length ≤ st.length := by
  intro st
  match st with
  | [] => simp [popGuard]
  | [t] => simp [popGuard]
  | t :: x :: r => simp [popGuard]

theorem applyOp_len : ∀ (op : StackOp) (st : List SName),
    (applyOp op st).length ≤ st.length + 1 := by
  intro op st
  cases op with
  | nop => simp [applyOp]
  | push s => simp [applyOp]
  | pushSelf =>
    match st with
    | [] => simp [applyOp]
    | x :: r => simp [applyOp]
  | pop1 =>
    have := popGuard_len st
    simp only [applyOp]
    omega
  | pop2 =>
    have h1 := popGuard_len st
    have h2 := popGuard_len (popGuard st)
    simp only [applyOp]
    omega

theorem isPop1_eq {op : StackOp} (h : isPop1 op = true) : op = .pop1 := by
  cases op <;> simp [isPop1] at h ⊢

theorem isNop_eq {op : StackOp} (h : isNop op = true) : op = .nop := by
  cases op <;> simp [isNop] at h ⊢

theorem isPath_eq {s : SName} (h : isPath s = true) : s = .path := by
  cases s <;> simp [isPath] at h ⊢

theorem isBlockComment_eq {s : SName} (h : isBlockComment s = true) :
    s = .blockComment := by
  cases s <;> simp [isBlockComment] at h ⊢

theorem catTexts_single (t : Token) : catTexts [t] = t.text := by
  simp [catTexts, cat]

/-! ### One-step specification of the driving loop

Every step of the loop preserves the bottom-`root` stack invariant and
strictly decreases the measure `2 * |rest| + |stack|`; the tokens it
emits are contiguous from the cursor and their texts concatenate to the
consumed input. -/

theorem step_spec {d : Dialect} {pos : Nat} {rest : List Char}
    {stack : List SName} {toks : List Token} {pos2 : Nat}
    {rest2 : List Char} {stack2 : List SName}
    (hall : allOk d = true) (hinv : lastRoot stack)
    (h : step d pos rest stack = .next toks pos2 rest2 stack2) :
    catTexts toks ++ rest2 = rest ∧
    pos2 = pos + (catTexts toks).length ∧
    chainedFrom pos toks = true ∧
    lastRoot stack2 ∧
    2 * rest2.length + stack2.length < 2 * rest.length + stack.length := by
  cases stack with
  | nil => exact absurd rfl (lastRoot_ne_nil hinv)
  | cons s st =>
    simp only [step] at h
    split at h
    · -- a rule matched
      rename_i r gs restM htr
      obtain ⟨hmem, him⟩ := tryRules_sound _ _ _ _ _ htr
      have hok := ruleOk_of_mem hall hmem
      have hcov := imatch_sound _ _ _ _ him
      split at h
      · -- default("#pop") rule: no action
        rename_i hact
        injection h with h1 h2 h3 h4
        subst h1; subst h2; subst h3; subst h4
        simp only [ruleOk, hact, Bool.and_eq_true] at hok
        obtain ⟨⟨hitems, hop⟩, hpath⟩ := hok
        have hs := isPath_eq hpath
        subst hs
        have hitems2 : r.items = [] := List.isEmpty_iff.mp hitems
        rw [hitems2, imatch] at him
        injection him with him2
        injection him2 with hgs hrest
        subst hgs; subst hrest
        rw [isPop1_eq hop]
        obtain ⟨hne, hlast⟩ :=
          lastRoot_cons_of_ne hinv (by intro hh; cases hh)
        match st, hne with
        | x :: st2, _ =>
          refine ⟨by simp [catTexts, cat], by simp [catTexts, cat], rfl,
            ?_, ?_⟩
          · simpa [applyOp, popGuard] using hlast
          · simp [applyOp, popGuard]
      · -- plain token-type action
        rename_i k hact
        injection h with h1 h2 h3 h4
        subst h1; subst h2; subst h3; subst h4
        simp only [ruleOk, hact] at hok
        have hne := imatch_ne _ _ _ _ hok him
        have hlenpos : 0 < (cat gs).length := List.length_pos.mpr hne
        have hlenr := congrArg List.length hcov
        rw [List.length_append] at hlenr
        have hsl := applyOp_len r.op (s :: st)
        refine ⟨by rw [catTexts_single]; exact hcov,
          by rw [catTexts_single],
          by simp [chainedFrom],
          applyOp_lastRoot r.op hinv,
          by simp only [List.length_cons] at hsl ⊢; omega⟩
      · -- bygroups action
        rename_i ks hact
        injection h with h1 h2 h3 h4
        subst h1; subst h2; subst h3; subst h4
        simp only [ruleOk, hact, Bool.and_eq_true] at hok
        obtain ⟨hcnt, hprog⟩ := hok
        have hkl : grpCount r.items = ks.length := by simpa using hcnt
        have hgl := imatch_len _ _ _ _ him
        have hlen : gs.length ≤ ks.length := by omega
        obtain ⟨he1, he2⟩ := emitGroups_spec gs ks pos hlen
        have hne := imatch_ne _ _ _ _ hprog him
        have hlenpos : 0 < (cat gs).length := List.length_pos.mpr hne
        have hlenr := congrArg List.length hcov
        rw [List.length_append] at hlenr
        have hsl := applyOp_len r.op (s :: st)
        refine ⟨by rw [he1]; exact hcov,
          by rw [he1],
          he2,
          applyOp_lastRoot r.op hinv,
          by simp only [List.length_cons] at hsl ⊢; omega⟩
      · -- endcomment_callback
        rename_i hact
        injection h with h1 h2 h3 h4
        subst h1; subst h2; subst h3; subst h4
        simp only [ruleOk, hact, Bool.and_eq_true] at hok
        obtain ⟨⟨⟨hcnt, hbc⟩, hnop⟩, hprog⟩ := hok
        have hs := isBlockComment_eq hbc
        subst hs
        rw [isNop_eq hnop]
        have hne := imatch_ne _ _ _ _ hprog him
        have hlenpos : 0 < (cat gs).length := List.length_pos.mpr hne
        have hlenr := congrArg List.length hcov
        rw [List.length_append] at hlenr
        obtain ⟨hstne, hlast⟩ :=
          lastRoot_cons_of_ne hinv (by intro hh; cases hh)
        have hE2 : (endcommentCallback pos gs (SName.blockComment :: st)).2
            = st := by
          rw [endcommentCallback]
          split <;> rfl
        rw [endcommentCallback]
        split
        · refine ⟨by rw [catTexts_single]; exact hcov,
            by rw [catTexts_single],
            by simp [chainedFrom],
            by simpa [applyOp] using hlast,
            by simp only [applyOp, List.tail_cons, List.length_cons]; omega⟩
        · have hgl := imatch_len _ _ _ _ him
          have hkl : grpCount r.items = 5 := by simpa using hcnt
          have hlen : gs.length ≤ 5 := by omega
          obtain ⟨he1, he2⟩ := emitAll_spec gs
            [.punctuation, .whitespace, .liquidTagName, .whitespace,
              .punctuation] pos (by simpa using hlen)
          refine ⟨by rw [he1]; exact hcov,
            by rw [he1],
            he2,
            by simpa [applyOp] using hlast,
            by simp only [applyOp, List.tail_cons, List.length_cons]; omega⟩
    · -- no rule matched
      rename_i htr
      split at h
      · simp at h
      · rename_i c rs
        split at h
        · rename_i hc
          injection h with h1 h2 h3 h4
          subst h1; subst h2; subst h3; subst h4
          subst hc
          refine ⟨by simp [catTexts_single],
            by simp [catTexts_single],
            by simp [chainedFrom],
            by simp [lastRoot],
            by simp only [List.length_cons, List.length_nil]; omega⟩
        · rename_i hc
          injection h with h1 h2 h3 h4
          subst h1; subst h2; subst h3; subst h4
          refine ⟨by simp [catTexts_single],
            by simp [catTexts_single],
            by simp [chainedFrom],
            hinv,
            by simp only [List.length_cons]; omega⟩

theorem step_done {d : Dialect} {pos : Nat} {rest : List Char}
    {stack : List SName} (h : step d pos rest stack = .done) : rest = [] := by
  cases stack with
  | nil => simp [step] at h
  | cons s st =>
    simp only [step] at h
    split at h
    · split at h <;> simp at h
    · split at h
      · rfl
      · split at h <;> simp at h

theorem step_stuck {d : Dialect} {pos : Nat} {rest : List Char}
    {stack : List SName} (h : step d pos rest stack = .stuck) : stack = [] := by
  cases stack with
  | nil => rfl
  | cons s st =>
    simp only [step] at h
    split at h
    · split at h <;> simp at h
    · split at h
      · simp at h
      · split at h <;> simp at h

/-- If the loop reaches end of input, the emitted tokens are contiguous
from the starting cursor and their texts concatenate to the remaining
input. -/
theorem run_sound {d : Dialect} (hall : allOk d = true) :
    ∀ (f pos : Nat) (rest : List Char) (stack : List SName),
    lastRoot stack → (run d f pos rest stack).2.2 = true →
    catTexts (run d f pos rest stack).1 = rest ∧
    chainedFrom pos (run d f pos rest stack).1 = true := by
  intro f
  induction f with
  | zero => intro pos rest stack hinv hok; simp [run] at hok
  | succ f ih =>
    intro pos rest stack hinv hok
    rcases hs : step d pos rest stack with _ | _ | ⟨toks, pos2, rest2, stack2⟩
    · have hrest := step_done hs
      subst hrest
      simp [run, hs, catTexts, cat, chainedFrom]
    · exact absurd (step_stuck hs) (lastRoot_ne_nil hinv)
    · obtain ⟨hcov, hpos, hch, hinv2, _⟩ := step_spec hall hinv hs
      simp only [run, hs] at hok ⊢
      obtain ⟨ih1, ih2⟩ := ih pos2 rest2 stack2 hinv2 hok
      constructor
      · rw [catTexts_append, ih1, hcov]
      · refine chainedFrom_append _ _ _ hch ?_
        rw [← hpos]
        exact ih2

/-- With fuel at least `2 * |rest| + |stack|` the loop reaches end of
input: every step consumes input or strictly shrinks the stack. -/
theorem run_complete {d : Dialect} (hall : allOk d = true) :
    ∀ (f pos : Nat) (rest : List Char) (stack : List SName),
    lastRoot stack → 2 * rest.length + stack.length ≤ f →
    (run d f pos rest stack).2.2 = true := by
  intro f
  induction f with
  | zero =>
    intro pos rest stack hinv hf
    have := lastRoot_ne_nil hinv
    have : 0 < stack.length := List.length_pos.mpr this
    omega
  | succ f ih =>
    intro pos rest stack hinv hf
    rcases hs : step d pos rest stack with _ | _ | ⟨toks, pos2, rest2, stack2⟩
    · simp [run, hs]
    · exact absurd (step_stuck hs) (lastRoot_ne_nil hinv)
    · obtain ⟨_, _, _, hinv2, hmeas⟩ := step_spec hall hinv hs
      simp only [run, hs]
      exact ih pos2 rest2 stack2 hinv2 (by omega)

theorem lastRoot_init : lastRoot [SName.root] := by simp [lastRoot]

/-- The driving loop always reaches end of input with the fuel used by
`tokenize`. -/
theorem tokenize_done (d : Dialect) (hall : allOk d = true) (s : String) :
    (tokenize d s).2.2 = true := by
  refine run_complete hall _ 0 s.data [SName.root] lastRoot_init ?_
  simp only [List.length_cons, List.length_nil]
  omega

/-- Coverage and contiguity for a whole tokenization. -/
theorem tokenize_cover (d : Dialect) (hall : allOk d = true) (s : String) :
    catTexts (tokenize d s).1 = s.data ∧
    chainedFrom 0 (tokenize d s).1 = true := by
  exact run_sound hall _ 0 s.data [SName.root] lastRoot_init
    (tokenize_done d hall s)

/-! ### Consequences of contiguity -/

theorem chainedFrom_adj : ∀ (ts : List Token) (p i : Nat) (a b : Token),
    chainedFrom p ts = true → ts[i]? = some a → ts[i + 1]? = some b →
    b.start = a.start + a.text.length
  | [], _, _, _, _, _, ha, _ => by simp at ha
  | t :: ts, p, 0, a, b, hch, ha, hb => by
    rw [chainedFrom, Bool.and_eq_true] at hch
    simp only [List.getElem?_cons_zero, Option.some.injEq] at ha
    subst ha
    cases ts with
    | nil => simp at hb
    | cons u ts2 =>
      simp only [List.getElem?_cons_succ, List.getElem?_cons_zero,
        Option.some.injEq] at hb
      subst hb
      have hch2 := hch.2
      rw [chainedFrom, Bool.and_eq_true] at hch2
      have h1 : t.start = p := by simpa using hch.1
      have h2 : u.start = p + t.text.length := by simpa using hch2.1
      omega
  | t :: ts, p, Nat.succ i, a, b, hch, ha, hb => by
    rw [chainedFrom, Bool.and_eq_true] at hch
    simp only [List.getElem?_cons_succ] at ha hb
    exact chainedFrom_adj ts (p + t.text.length) i a b hch.2 ha hb

theorem chainedFrom_ge : ∀ (ts : List Token) (p : Nat) (t : Token),
    chainedFrom p ts = true → t ∈ ts → p ≤ t.start
  | [], _, _, _, ht => by simp at ht
  | u :: ts, p, t, hch, ht => by
    rw [chainedFrom, Bool.and_eq_true] at hch
    rcases List.mem_cons.mp ht with rfl | ht2
    · have : t.start = p := by simpa using hch.1
      omega
    · have := chainedFrom_ge ts (p + u.text.length) t hch.2 ht2
      omega

theorem chainedFrom_mono : ∀ (ts : List Token) (p : Nat),
    chainedFrom p ts = true →
    List.Pairwise (fun a b : Token => a.start ≤ b.start) ts
  | [], _, _ => List.Pairwise.nil
  | t :: ts, p, hch => by
    rw [chainedFrom, Bool.and_eq_true] at hch
    refine List.Pairwise.cons ?_ (chainedFrom_mono ts _ hch.2)
    intro b hb
    have h1 : t.start = p := by simpa using hch.1
    have h2 := chainedFrom_ge ts (p + t.text.length) b hch.2 hb
    omega

/-! ### Further inversion helpers -/

theorem emitGroups_mem : ∀ (gs : List (List Char)) (ks : List TokKind)
    (p : Nat) (t : Token), t ∈ emitGroups p ks gs →
    ∃ i : Nat, ks[i]? = some t.kind ∧ gs[i]? = some t.text
  | [], ks, p, t, ht => by cases ks <;> simp [emitGroups] at ht
  | g :: gs, [], p, t, ht => by simp [emitGroups] at ht
  | g :: gs, k :: ks, p, t, ht => by
    by_cases hg : g.isEmpty
    · rw [emitGroups, if_pos hg] at ht
      obtain ⟨i, h1, h2⟩ := emitGroups_mem gs ks p t ht
      refine ⟨i + 1, ?_, ?_⟩
      · rw [List.getElem?_cons_succ]; exact h1
      · rw [List.getElem?_cons_succ]; exact h2
    · rw [emitGroups, if_neg hg] at ht
      rcases List.mem_cons.mp ht with rfl | ht2
      · exact ⟨0, by simp, by simp⟩
      · obtain ⟨i, h1, h2⟩ := emitGroups_mem gs ks (p + g.length) t ht2
        refine ⟨i + 1, ?_, ?_⟩
        · rw [List.getElem?_cons_succ]; exact h1
        · rw [List.getElem?_cons_succ]; exact h2

theorem imatch_nil_inv {cs : List Char} {gs : List (List Char)}
    {r : List Char} (h : imatch [] cs = some (gs, r)) :
    gs = [] ∧ r = cs := by
  rw [imatch] at h
  injection h with h2
  injection h2 with h3 h4
  exact ⟨h3.symm, h4.symm⟩

theorem imatch_grp_inv {p : GPat} {its : List Item} {cs : List Char}
    {gs : List (List Char)} {r : List Char}
    (h : imatch (.grp p :: its) cs = some (gs, r)) :
    ∃ t r1 gs1, gmatch p cs = some (t, r1) ∧
      imatch its r1 = some (gs1, r) ∧ gs = t :: gs1 := by
  rw [imatch] at h
  split at h
  · cases h
  · rename_i t r1 hg
    split at h
    · cases h
    · rename_i gs1 r2 hi
      injection h with h2
      injection h2 with h3 h4
      subst h3; subst h4
      exact ⟨t, r1, gs1, hg, hi, rfl⟩

/-- Inversion of a two-group rule pattern. -/
theorem imatch_two_grp {p1 p2 : GPat} {cs : List Char}
    {gs : List (List Char)} {r : List Char}
    (h : imatch [.grp p1, .grp p2] cs = some (gs, r)) :
    ∃ t1 r1 t2, gmatch p1 cs = some (t1, r1) ∧
      gmatch p2 r1 = some (t2, r) ∧ gs = [t1, t2] := by
  obtain ⟨t1, r1, gs1, hg1, hi1, rfl⟩ := imatch_grp_inv h
  obtain ⟨t2, r2, gs2, hg2, hi2, rfl⟩ := imatch_grp_inv hi1
  obtain ⟨rfl, rfl⟩ := imatch_nil_inv hi2
  exact ⟨t1, r1, t2, hg1, hg2, rfl⟩

theorem gmatch_seq_inv {a b : GPat} {cs t r : List Char}
    (h : gmatch (.seq a b) cs = some (t, r)) :
    ∃ t1 r1 t2, gmatch a cs = some (t1, r1) ∧
      gmatch b r1 = some (t2, r) ∧ t = t1 ++ t2 := by
  rw [gmatch] at h
  split at h
  · cases h
  · rename_i t1 r1 ha
    split at h
    · cases h
    · rename_i t2 r2 hb
      injection h with h2
      injection h2 with h3 h4
      subst h3; subst h4
      exact ⟨t1, r1, t2, ha, hb, rfl⟩

theorem gmatch_one_len {p : Char → Bool} {cs t r : List Char}
    (h : gmatch (.one p) cs = some (t, r)) : t.length = 1 := by
  cases cs with
  | nil => simp [gmatch] at h
  | cons c cs2 =>
    by_cases hc : p c
    · rw [gmatch, if_pos hc] at h
      injection h with h2
      injection h2 with h3 h4
      subst h3
      rfl
    · simp [gmatch, hc] at h

theorem gmatch_cls1_pos {p : Char → Bool} {cs t r : List Char}
    (h : gmatch (.cls1 p) cs = some (t, r)) : 0 < t.length := by
  cases cs with
  | nil => simp [gmatch] at h
  | cons c cs2 =>
    by_cases hc : p c
    · rw [gmatch, if_pos hc] at h
      injection h with h2
      injection h2 with h3 h4
      subst h3
      simp
    · simp [gmatch, hc] at h

/-- A generic line-statement tag name `[a-z][a-z_0-9]+` has at least two
characters. -/
theorem tagNameP2_len {cs t r : List Char}
    (h : gmatch tagNameP2 cs = some (t, r)) : 2 ≤ t.length := by
  rw [tagNameP2] at h
  obtain ⟨t1, r1, t2, h1, h2, rfl⟩ := gmatch_seq_inv h
  have ha := gmatch_one_len h1
  have hb := gmatch_cls1_pos h2
  rw [List.length_append]
  omega

/-! ### Claim C1 -/

/-- C1: when the `{% endcomment %}` pattern fires in the block-comment
state, the emitted tokens depend on the stack frame below the top: if
that frame is also `block-comment` the whole closing tag is one
`Comment` token, otherwise the five groups are emitted as open
delimiter, whitespace, tag name, whitespace, close delimiter
(`Punctuation`/`Whitespace`/`Token.Liquid.Tag.Name` types); in both
cases exactly one frame is popped.  On the nested example input the
inner `{% comment %}`/first `{% endcomment %}` pair and `B` are all
`Comment`, while the outer opening tag and the final `{% endcomment %}`
are decomposed into their five parts. -/
theorem c1_endcomment_nesting :
    (∀ (pos : Nat) (gs : List (List Char)) (s2 : SName) (tl : List SName),
      (s2 = SName.blockComment →
        endcommentCallback pos gs (SName.blockComment :: s2 :: tl) =
          ([⟨pos, .comment, cat gs⟩], s2 :: tl)) ∧
      (s2 ≠ SName.blockComment →
        endcommentCallback pos gs (SName.blockComment :: s2 :: tl) =
          (emitAll pos [.punctuation, .whitespace, .liquidTagName,
            .whitespace, .punctuation] gs, s2 :: tl))) ∧
    toksL2 exampleNested =
      [⟨0, .liquidDelimiter, ("\x7b%".data)⟩, ⟨2, .whitespace, (" ".data)⟩,
       ⟨3, .liquidTagName, ("comment".data)⟩, ⟨10, .whitespace, (" ".data)⟩,
       ⟨11, .liquidDelimiter, ("%\x7d".data)⟩, ⟨13, .comment, ("A".data)⟩,
       ⟨14, .comment, ("\x7b% comment %\x7d".data)⟩,
       ⟨27, .comment, ("B".data)⟩,
       ⟨28, .comment, ("\x7b% endcomment %\x7d".data)⟩,
       ⟨44, .comment, ("C".data)⟩,
       ⟨45, .punctuation, ("\x7b%".data)⟩, ⟨47, .whitespace, (" ".data)⟩,
       ⟨48, .liquidTagName, ("endcomment".data)⟩,
       ⟨58, .whitespace, (" ".data)⟩,
       ⟨59, .punctuation, ("%\x7d".data)⟩] := by
  constructor
  · intro pos gs s2 tl
    constructor
    · intro h
      subst h
      rw [endcommentCallback, if_pos (by simp)]
      rfl
    · intro h
      rw [endcommentCallback, if_neg (by simpa using h)]
      rfl
  · rfl

theorem c1_endcomment_nesting_witness :
    endcommentCallback 28 [("x".data)]
        (SName.blockComment :: SName.blockComment :: [SName.root]) =
      ([⟨28, TokKind.comment, cat [("x".data)]⟩],
       SName.blockComment :: [SName.root]) ∧
    endcommentCallback 45 [("x".data)] (SName.blockComment :: [SName.root]) =
      (emitAll 45 [.punctuation, .whitespace, .liquidTagName, .whitespace,
        .punctuation] [("x".data)], [SName.root]) :=
  ⟨(c1_endcomment_nesting.1 28 [("x".data)] .blockComment [SName.root]).1 rfl,
   (c1_endcomment_nesting.1 45 [("x".data)] .root []).2 (by decide)⟩

/-! ### Claim C2 -/

/-- C2: for every input, the concatenation of the texts of the tokens
emitted by the Liquid2 tokenizer equals the input exactly, and every
adjacent pair `(a, b)` of emitted tokens satisfies
`b.start = a.start + a.text.length`. -/
theorem c2_coverage_adjacency :
    (∀ s : String, catTexts (toksL2 s) = s.data) ∧
    (∀ (s : String) (i : Nat) (a b : Token),
      (toksL2 s)[i]? = some a → (toksL2 s)[i + 1]? = some b →
      b.start = a.start + a.text.length) := by
  constructor
  · intro s
    exact (tokenize_cover l2D allOk_l2 s).1
  · intro s i a b ha hb
    exact chainedFrom_adj (toksL2 s) 0 i a b
      (tokenize_cover l2D allOk_l2 s).2 ha hb

theorem c2_coverage_adjacency_witness :
    (⟨2, TokKind.liquidText, ("\x7b".data)⟩ : Token).start =
      (⟨0, TokKind.liquidText, ("ab".data)⟩ : Token).start +
        (⟨0, TokKind.liquidText, ("ab".data)⟩ : Token).text.length :=
  c2_coverage_adjacency.2 ("ab\x7b") 0
    ⟨0, TokKind.liquidText, ("ab".data)⟩
    ⟨2, TokKind.liquidText, ("\x7b".data)⟩ (by decide) (by decide)

/-! ### Claim C3 -/

/-- C3 counterexample: on `{% comment %}{%endcomment%}` the decomposed
outermost close emits two empty `Whitespace` tokens, so two emitted
tokens share start offset 15 (and two share 25): the start offsets are
not strictly increasing. -/
theorem c3_strict_increase_cex :
    (toksL2 exampleTight).map Token.start =
      [0, 2, 3, 10, 11, 13, 15, 15, 25, 25] ∧
    ¬ List.Pairwise (fun a b : Nat => a < b)
      ((toksL2 exampleTight).map Token.start) := by
  exact ⟨rfl, by decide⟩

/-- C3 amended: for every input (both lexers), the start offsets of the
emitted tokens are monotone non-decreasing; equal offsets occur only via
zero-length token texts (see the coverage/adjacency theorem). -/
theorem c3_monotone_amended :
    ∀ s : String,
    List.Pairwise (fun a b : Token => a.start ≤ b.start) (toksL2 s) ∧
    List.Pairwise (fun a b : Token => a.start ≤ b.start) (toksStd s) := by
  intro s
  exact ⟨chainedFrom_mono (toksL2 s) 0 (tokenize_cover l2D allOk_l2 s).2,
    chainedFrom_mono (toksStd s) 0 (tokenize_cover stdD allOk_std s).2⟩

/-! ### Claim C5 -/

/-- C5 counterexample: on the unterminated input `{{ ` the tokenizer
reaches end of input with stack depth 2 (> 1) and simply returns the two
tokens produced so far: no end-of-input diagnostic of any kind appears
in the output, and no `Error` token is emitted. -/
theorem c5_no_eof_diagnostic_cex :
    tokenize l2D exampleUnterminated =
      ([⟨0, .liquidDelimiter, ("\x7b\x7b".data)⟩,
        ⟨2, .whitespace, (" ".data)⟩],
       [SName.outputExpression, SName.root], true) ∧
    (∀ t ∈ (tokenize l2D exampleUnterminated).1, t.kind ≠ TokKind.error) ∧
    1 < (tokenize l2D exampleUnterminated).2.1.length := by
  exact ⟨rfl, by decide, by decide⟩

/-- C5 amended: when input ends while the stack depth is greater than 1,
the tokenizer terminates normally (no infinite loop and no crash),
returning exactly the tokens produced so far — their texts concatenate
to the whole input; the unterminated construct is observable only in the
final state stack, not as a diagnostic in the token stream. -/
theorem c5_unterminated_amended :
    ∀ s : String, (tokenize l2D s).2.2 = true ∧
      catTexts (tokenize l2D s).1 = s.data :=
  fun s => ⟨tokenize_done l2D allOk_l2 s, (tokenize_cover l2D allOk_l2 s).1⟩

/-! ### Claim C6 -/

/-- C6 counterexample: inside `{liquid` followed by a bare newline the
line-statements state has no matching rule and no default, yet the
driver emits a `Text` token (resetting the stack to `['root']`), not an
`Error` token. -/
theorem c6_newline_fallback_cex :
    tryRules (rules l2D .lineStatements) ['\n'] = none ∧
    step l2D 7 ['\n'] [SName.lineStatements, SName.root] =
      .next [⟨7, .text, ("\n".data)⟩] 8 [] [SName.root] ∧
    toksL2 exampleLiquidNL =
      [⟨0, .liquidDelimiter, ("\x7b".data)⟩,
       ⟨1, .liquidTagName, ("liquid".data)⟩,
       ⟨7, .text, ("\n".data)⟩] :=
  ⟨rfl, rfl, rfl⟩

/-- C6 amended: when no rule of the current state matches at the cursor
(and the state has no default action), the tokenizer emits exactly one
token covering one character and advances the cursor by one — an
`Error` token leaving the stack unchanged, except when the character is
a newline, in which case a `Text` token is emitted and the stack is
reset to `['root']`; it never aborts, and a stray `{` in the root state
is consumed as a `Text`-kind token with scanning continuing to the end
of input. -/
theorem c6_fallback_amended :
    (∀ (d : Dialect) (pos : Nat) (c : Char) (rs : List Char) (s : SName)
       (st : List SName),
      tryRules (rules d s) (c :: rs) = none →
      step d pos (c :: rs) (s :: st) =
        (if c = '\n' then
          StepRes.next [⟨pos, .text, [c]⟩] (pos + 1) rs [SName.root]
         else
          StepRes.next [⟨pos, .error, [c]⟩] (pos + 1) rs (s :: st))) ∧
    toksL2 ("a\x7bb") =
      [⟨0, .liquidText, ("a".data)⟩, ⟨1, .liquidText, ("\x7b".data)⟩,
       ⟨2, .liquidText, ("b".data)⟩] ∧
    doneL2 ("a\x7bb") = true := by
  refine ⟨?_, rfl, rfl⟩
  intro d pos c rs s st htr
  simp only [step, htr]

theorem c6_fallback_amended_witness :
    step l2D 7 ['\n'] (SName.lineStatements :: [SName.root]) =
      (if '\n' = '\n' then
        StepRes.next [⟨7, TokKind.text, ['\n']⟩] (7 + 1) [] [SName.root]
       else
        StepRes.next [⟨7, TokKind.error, ['\n']⟩] (7 + 1) []
          (SName.lineStatements :: [SName.root])) :=
  c6_fallback_amended.1 l2D 7 '\n' [] SName.lineStatements [SName.root] rfl

/-! ### Claim C7 -/

/-- C7 counterexample: with the Liquid2 lexer, `{% liquid ... %}` does
not enter line-statement mode at all (its `liquid` rule requires a
single `{`, so `{% liquid` is lexed by the generic-tag rule into a
tag-expression): on the example input the stack trace never contains a
`line-expression` or `line-statements` frame, the final `%}` pops a
single frame, and no token is classified as a control-flow keyword. -/
theorem c7_liquid2_example_cex :
    traceL2 exampleLineStmt =
      [[SName.tagExpression, SName.root], [SName.tagExpression, SName.root],
       [SName.tagExpression, SName.root], [SName.tagExpression, SName.root],
       [SName.tagExpression, SName.root], [SName.tagExpression, SName.root],
       [SName.tagExpression, SName.root], [SName.tagExpression, SName.root],
       [SName.tagExpression, SName.root], [SName.tagExpression, SName.root],
       [SName.tagExpression, SName.root], [SName.root]] ∧
    (∀ st ∈ traceL2 exampleLineStmt,
      SName.lineExpression ∉ st ∧ SName.lineStatements ∉ st) ∧
    (∀ t ∈ toksL2 exampleLineStmt, t.kind ≠ TokKind.liquidControlFlow) := by
  exact ⟨rfl, by decide, by decide⟩

/-- C7 amended: in the line-expression state a newline terminates the
line expression with a single guarded pop, and `%}` terminates the whole
block with two guarded pops (`('#pop', '#pop')`) in one step; with the
standard lexer, whose `liquid` rule requires `{%`, the example input
`{% liquid\nif a\necho a\nendif %}` pops back to line-statements at each
statement-ending newline and its final `%}` pops two frames at once,
leaving the stack at `['root']`; with the Liquid2 lexer the example
opens a plain tag-expression instead (see the counterexample). -/
theorem c7_line_expression_amended :
    (∀ (pos : Nat) (rs : List Char) (tl : List SName),
      step l2D pos ('\n' :: rs) (SName.lineExpression :: tl) =
        .next [⟨pos, .whitespace, ("\n".data)⟩] (pos + 1) rs
          (applyOp .pop1 (SName.lineExpression :: tl))) ∧
    (∀ (pos : Nat) (rs : List Char) (tl : List SName),
      step l2D pos ('%' :: '\x7d' :: rs) (SName.lineExpression :: tl) =
        .next [⟨pos, .liquidDelimiter, ("%\x7d".data)⟩] (pos + 2) rs
          (applyOp .pop2 (SName.lineExpression :: tl))) ∧
    (∀ (x : SName) (tl : List SName),
      applyOp .pop1 (SName.lineExpression :: x :: tl) = x :: tl) ∧
    (∀ (x y : SName) (tl : List SName),
      applyOp .pop2 (SName.lineExpression :: x :: y :: tl) = y :: tl) ∧
    traceStd exampleLineStmt =
      [[SName.lineStatements, SName.root],
       [SName.lineExpression, SName.lineStatements, SName.root],
       [SName.lineExpression, SName.lineStatements, SName.root],
       [SName.lineExpression, SName.lineStatements, SName.root],
       [SName.lineStatements, SName.root],
       [SName.lineExpression, SName.lineStatements, SName.root],
       [SName.lineExpression, SName.lineStatements, SName.root],
       [SName.lineExpression, SName.lineStatements, SName.root],
       [SName.lineStatements, SName.root],
       [SName.lineExpression, SName.lineStatements, SName.root],
       [SName.lineExpression, SName.lineStatements, SName.root],
       [SName.root]] := by
  refine ⟨fun pos rs tl => rfl, fun pos rs tl => rfl,
    fun x tl => rfl, fun x y tl => rfl, rfl⟩

/-! ### Claim C9 -/

/-- C9: for every finite input the tokenizer reaches end of input (the
driving loop terminates within the fuel bound and the token list is
finite), and every step from a reachable stack either advances the
cursor by at least one character or leaves the input unchanged and
strictly decreases the stack depth. -/
theorem c9_termination :
    (∀ s : String, (tokenize l2D s).2.2 = true) ∧
    (∀ (pos : Nat) (rest : List Char) (stack : List SName)
       (toks : List Token) (pos2 : Nat) (rest2 : List Char)
       (stack2 : List SName),
      lastRoot stack →
      step l2D pos rest stack = .next toks pos2 rest2 stack2 →
      rest2.length < rest.length ∨
        (rest2 = rest ∧ stack2.length < stack.length)) := by
  constructor
  · exact tokenize_done l2D allOk_l2
  · intro pos rest stack toks pos2 rest2 stack2 hinv hs
    obtain ⟨hcov, _, _, _, hmeas⟩ := step_spec allOk_l2 hinv hs
    by_cases hz : catTexts toks = []
    · right
      rw [hz, List.nil_append] at hcov
      subst hcov
      exact ⟨rfl, by omega⟩
    · left
      have hlen := congrArg List.length hcov
      rw [List.length_append] at hlen
      have hpos : 0 < (catTexts toks).length := List.length_pos.mpr hz
      omega

theorem c9_termination_witness :
    ([] : List Char).length < ("a".data).length ∨
      (([] : List Char) = ("a".data) ∧
        ([SName.root] : List SName).length < ([SName.root]).length) :=
  c9_termination.2 0 ("a".data) [SName.root]
    [⟨0, TokKind.liquidText, ("a".data)⟩] 1 [] [SName.root]
    lastRoot_init rfl

/-! ### Claim C8 -/

/-- C8 counterexample: on `{{ foo[bar]["a b"][1] }}` no single emitted
token has text `"a b"` (with the quotes): the string is emitted as three
consecutive `String.Double` tokens `"`, `a b`, `"`. -/
theorem c8_string_token_cex :
    (∀ t ∈ toksL2 examplePath, t.text ≠ ("\x22a b\x22".data)) ∧
    (∃ t ∈ toksL2 examplePath,
      t.text = ("a b".data) ∧ t.kind = TokKind.stringDouble) := by
  exact ⟨by decide, by decide⟩

/-- C8 amended: `{{ foo[bar]["a b"][1] }}` yields, in order: output-open
delimiter, identifier `foo`, `[`, identifier `bar`, `]`, `[`, the string
`"a b"` as three consecutive `String.Double` tokens (opening quote,
content, closing quote), `]`, `[`, integer `1`, `]`, and output-close
delimiter, with whitespace tokens interleaved per the literal spacing. -/
theorem c8_path_chain_amended :
    toksL2 examplePath =
      [⟨0, .liquidDelimiter, ("\x7b\x7b".data)⟩, ⟨2, .whitespace, (" ".data)⟩,
       ⟨3, .nameVariable, ("foo".data)⟩, ⟨6, .punctuation, ("[".data)⟩,
       ⟨7, .nameVariable, ("bar".data)⟩, ⟨10, .punctuation, ("]".data)⟩,
       ⟨11, .punctuation, ("[".data)⟩, ⟨12, .stringDouble, ("\x22".data)⟩,
       ⟨13, .stringDouble, ("a b".data)⟩, ⟨16, .stringDouble, ("\x22".data)⟩,
       ⟨17, .punctuation, ("]".data)⟩, ⟨18, .punctuation, ("[".data)⟩,
       ⟨19, .numberInteger, ("1".data)⟩, ⟨20, .punctuation, ("]".data)⟩,
       ⟨21, .whitespace, (" ".data)⟩,
       ⟨22, .liquidDelimiter, ("\x7d\x7d".data)⟩] := rfl

/-! ### Claim C4 -/

/-- C4 counterexample: on `{{ '\` (backslash at end of input) the escape
rule `\\.` cannot match, the text-run rule excludes the backslash, and
the driver emits an `Error` token from inside the single-quoted-string
state. -/
theorem c4_string_error_cex :
    toksL2 exampleBackslashEOI =
      [⟨0, .liquidDelimiter, ("\x7b\x7b".data)⟩, ⟨2, .whitespace, (" ".data)⟩,
       ⟨3, .stringSingle, ("\x27".data)⟩, ⟨4, .error, ("\x5c".data)⟩] ∧
    step l2D 4 ['\x5c'] [SName.singleString, SName.outputExpression,
        SName.root] =
      .next [⟨4, .error, ("\x5c".data)⟩] 5 []
        [SName.singleString, SName.outputExpression, SName.root] :=
  ⟨rfl, rfl⟩

/-- C4 amended: the escape rule matches a backslash followed by any one
character except a newline (Python `.` without `DOTALL`), so string
scanning is total except at a backslash that is followed by a newline or
ends the input: an `Error` token can be emitted from a string state only
when the cursor is at such a backslash. -/
theorem c4_string_error_amended :
    ∀ (ss : SName) (pos : Nat) (rest : List Char) (tl : List SName)
      (toks : List Token) (pos2 : Nat) (rest2 : List Char)
      (stack2 : List SName),
      (ss = SName.singleString ∨ ss = SName.doubleString) →
      step l2D pos rest (ss :: tl) = .next toks pos2 rest2 stack2 →
      (∃ t ∈ toks, t.kind = TokKind.error) →
      rest.head? = some '\x5c' ∧
        (rest.tail.head? = some '\n' ∨ rest.tail = []) := by
  intro ss pos rest tl toks pos2 rest2 stack2 hss h hex
  rcases hss with rfl | rfl
  · simp only [step] at h
    split at h
    · rename_i r gs restM htr
      exfalso
      obtain ⟨hmem, him⟩ := tryRules_sound _ _ _ _ _ htr
      simp only [rules, singleStringRules, List.mem_cons,
        List.not_mem_nil, or_false] at hmem
      split at h
      · rename_i hact
        rcases hmem with rfl | rfl | rfl <;> simp at hact
      · rename_i k hact
        injection h with h1 h2 h3 h4
        subst h1
        obtain ⟨t, ht, hk⟩ := hex
        rcases List.mem_singleton.mp ht with rfl
        rcases hmem with rfl | rfl | rfl <;> simp_all
      · rename_i ks hact
        rcases hmem with rfl | rfl | rfl <;> simp at hact
      · rename_i hact
        rcases hmem with rfl | rfl | rfl <;> simp at hact
    · rename_i htr
      have hr1 := tryRules_none _ _ htr
        ⟨[.grp (.seq (.lit ("\x5c".data)) (.one (fun c => !(c = '\n'))))],
          some (.tok .stringEscape), .nop⟩
        (by simp [rules, singleStringRules])
      have hr2 := tryRules_none _ _ htr
        ⟨[.grp (.lit ("\x27".data))], some (.tok .stringSingle), .pop1⟩
        (by simp [rules, singleStringRules])
      have hr3 := tryRules_none _ _ htr
        ⟨[.grp (.cls1 (fun c => !(c = '\x5c' || c = '\x27')))],
          some (.tok .stringSingle), .nop⟩
        (by simp [rules, singleStringRules])
      split at h
      · simp at h
      · rename_i c rs
        split at h
        · rename_i hc
          injection h with h1 h2 h3 h4
          subst h1
          obtain ⟨t, ht, hk⟩ := hex
          rcases List.mem_singleton.mp ht with rfl
          simp at hk
        · rename_i hc
          by_cases hc1 : c = '\x5c'
          · subst hc1
            refine ⟨rfl, ?_⟩
            cases rs with
            | nil => exact Or.inr rfl
            | cons c2 rs2 =>
              by_cases hc2 : c2 = '\n'
              · subst hc2
                exact Or.inl rfl
              · exfalso
                simp [imatch, gmatch, litM, hc2] at hr1
          · exfalso
            by_cases hcq : c = '\x27'
            · subst hcq
              simp [imatch, gmatch, litM] at hr2
            · simp [imatch, gmatch, hc1, hcq] at hr3
  · simp only [step] at h
    split at h
    · rename_i r gs restM htr
      exfalso
      obtain ⟨hmem, him⟩ := tryRules_sound _ _ _ _ _ htr
      simp only [rules, doubleStringRules, List.mem_cons,
        List.not_mem_nil, or_false] at hmem
      split at h
      · rename_i hact
        rcases hmem with rfl | rfl | rfl <;> simp at hact
      · rename_i k hact
        injection h with h1 h2 h3 h4
        subst h1
        obtain ⟨t, ht, hk⟩ := hex
        rcases List.mem_singleton.mp ht with rfl
        rcases hmem with rfl | rfl | rfl <;> simp_all
      · rename_i ks hact
        rcases hmem with rfl | rfl | rfl <;> simp at hact
      · rename_i hact
        rcases hmem with rfl | rfl | rfl <;> simp at hact
    · rename_i htr
      have hr1 := tryRules_none _ _ htr
        ⟨[.grp (.seq (.lit ("\x5c".data)) (.one (fun c => !(c = '\n'))))],
          some (.tok .stringEscape), .nop⟩
        (by simp [rules, doubleStringRules])
      have hr2 := tryRules_none _ _ htr
        ⟨[.grp (.lit ("\x22".data))], some (.tok .stringDouble), .pop1⟩
        (by simp [rules, doubleStringRules])
      have hr3 := tryRules_none _ _ htr
        ⟨[.grp (.cls1 (fun c => !(c = '\x5c' || c = '\x22')))],
          some (.tok .stringDouble), .nop⟩
        (by simp [rules, doubleStringRules])
      split at h
      · simp at h
      · rename_i c rs
        split at h
        · rename_i hc
          injection h with h1 h2 h3 h4
          subst h1
          obtain ⟨t, ht, hk⟩ := hex
          rcases List.mem_singleton.mp ht with rfl
          simp at hk
        · rename_i hc
          by_cases hc1 : c = '\x5c'
          · subst hc1
            refine ⟨rfl, ?_⟩
            cases rs with
            | nil => exact Or.inr rfl
            | cons c2 rs2 =>
              by_cases hc2 : c2 = '\n'
              · subst hc2
                exact Or.inl rfl
              · exfalso
                simp [imatch, gmatch, litM, hc2] at hr1
          · exfalso
            by_cases hcq : c = '\x22'
            · subst hcq
              simp [imatch, gmatch, litM] at hr2
            · simp [imatch, gmatch, hc1, hcq] at hr3

theorem c4_string_error_amended_witness :
    (['\x5c'] : List Char).head? = some '\x5c' ∧
      ((['\x5c'] : List Char).tail.head? = some '\n' ∨
        (['\x5c'] : List Char).tail = []) :=
  c4_string_error_amended SName.singleString 4 ['\x5c']
    [SName.outputExpression, SName.root]
    [⟨4, TokKind.error, ("\x5c".data)⟩] 5 []
    [SName.singleString, SName.outputExpression, SName.root]
    (Or.inl rfl) rfl ⟨⟨4, TokKind.error, ("\x5c".data)⟩, by simp, rfl⟩

/-! ### Claim C10 -/

/-- C10: the line-statements generic tag-name rule uses
`[a-z][a-z_0-9]+` (at least two characters), so no step taken from the
line-statements state ever emits a tag-name token of length one, while
the root state's generic tag rule `[a-z][a-z_0-9]*` accepts a
single-letter tag name such as `x` in `{%x %}`. -/
theorem c10_line_tag_min_len :
    (∀ (pos : Nat) (rest : List Char) (tl : List SName) (toks : List Token)
       (pos2 : Nat) (rest2 : List Char) (stack2 : List SName),
      step l2D pos rest (SName.lineStatements :: tl) =
        .next toks pos2 rest2 stack2 →
      ∀ t ∈ toks, t.kind = TokKind.liquidTagName → 2 ≤ t.text.length) ∧
    (⟨2, TokKind.liquidTagName, ("x".data)⟩ : Token) ∈
      toksL2 ("\x7b%x %\x7d") := by
  constructor
  · intro pos rest tl toks pos2 rest2 stack2 h t ht hk
    simp only [step] at h
    split at h
    · rename_i r gs restM htr
      obtain ⟨hmem, him⟩ := tryRules_sound _ _ _ _ _ htr
      simp only [rules, lineStatementsRules, List.mem_cons,
        List.not_mem_nil, or_false] at hmem
      split at h
      · rename_i hact
        rcases hmem with rfl | rfl | rfl | rfl <;> simp at hact
      · rename_i k hact
        injection h with h1 h2 h3 h4
        subst h1
        rcases List.mem_singleton.mp ht with rfl
        rcases hmem with rfl | rfl | rfl | rfl <;> simp_all
      · rename_i ks hact
        injection h with h1 h2 h3 h4
        subst h1
        rcases hmem with rfl | rfl | rfl | rfl
        · simp at hact
        · injection hact with hact2
          injection hact2 with hact3
          subst hact3
          obtain ⟨i, hki, hgi⟩ := emitGroups_mem _ _ _ _ ht
          rw [hk] at hki
          rcases i with _ | _ | i <;> simp at hki
        · injection hact with hact2
          injection hact2 with hact3
          subst hact3
          obtain ⟨t1, r1, t2, hg1, hg2, rfl⟩ := imatch_two_grp him
          obtain ⟨i, hki, hgi⟩ := emitGroups_mem _ _ _ _ ht
          rw [hk] at hki
          rcases i with _ | _ | i
          · simp at hki
          · simp only [List.getElem?_cons_succ, List.getElem?_cons_zero,
              Option.some.injEq] at hgi
            have hlen := tagNameP2_len hg2
            rw [← hgi]
            exact hlen
          · simp at hki
        · simp at hact
      · rename_i hact
        rcases hmem with rfl | rfl | rfl | rfl <;> simp at hact
    · split at h
      · simp at h
      · split at h
        · injection h with h1 h2 h3 h4
          subst h1
          rcases List.mem_singleton.mp ht with rfl
          simp at hk
        · injection h with h1 h2 h3 h4
          subst h1
          rcases List.mem_singleton.mp ht with rfl
          simp at hk
  · decide

theorem c10_line_tag_min_len_witness :
    2 ≤ (⟨0, TokKind.liquidTagName, ("ab".data)⟩ : Token).text.length :=
  c10_line_tag_min_len.1 0 ("ab\n".data) [SName.root]
    [⟨0, TokKind.liquidTagName, ("ab".data)⟩] 2 ("\n".data)
    [SName.lineExpression, SName.lineStatements, SName.root] rfl
    ⟨0, TokKind.liquidTagName, ("ab".data)⟩ (by simp) rfl

end Liq
